import Mathlib

/-!
Verification of the `ytt` YouTube transcript tool (Go) against its
natural-language specification.

Go strings are modelled as lists of bytes (`List Nat`); Go's platform
`int` is modelled as a mathematical integer wrapped to signed 64-bit
two's complement (`toInt64`) at every arithmetic operation, exactly as
Go's wrapping semantics prescribe.  External effects (YouTube API calls,
the token file, the OAuth callback server) are modelled as explicit
oracles / state passing.
-/

set_option maxRecDepth 100000

namespace Ytt

/-- Go strings are byte strings. -/
abbrev Str := List Nat

/-- Byte string of an ASCII string literal. -/
def strBytes (s : String) : Str := s.data.map Char.toNat

/-- Wrap an integer to signed 64-bit two's complement, as every Go
arithmetic operation on `int` does on a 64-bit platform. -/
def toInt64 (x : Int) : Int := (x + 2 ^ 63) % 2 ^ 64 - 2 ^ 63

/-! ## ParseDuration (src/internal/youtube/videos.go)

    for i < len(d) && d[i] >= '0' && d[i] <= '9' { i++ }   -- digit run
    val = val*10 + int(d[j]-'0')                            -- decimal fold
    switch d[i] { case H/M/S }                              -- overwrite field
    return hours*3600 + minutes*60 + seconds
-/

/-- Byte test `b >= '0' && b <= '9'` ('0' = 48, '9' = 57). -/
def isDigitByte (b : Nat) : Bool := 48 ≤ b && b ≤ 57

/-- Length `i` of the leading digit run of `d`. -/
def digitRunLen (d : Str) : Nat := (d.takeWhile isDigitByte).length

/-- Conversion `int(b - '0')`: byte subtraction wraps modulo 256, then widens. -/
def byteDigit (b : Nat) : Int := ((b + 208) % 256 : Nat)

/-- The value loop `val = val*10 + int(d[j]-'0')` over a digit run,
with every Go `int` operation wrapped to 64 bits. -/
def goDigits : Str → Int → Int
  | [], v => v
  | b :: bs, v => goDigits bs (toInt64 (toInt64 (v * 10) + byteDigit b))

/-- The `for len(d) > 0` loop of `ParseDuration`.  The fuel argument
bounds the number of iterations; one byte at least is consumed per
iteration, so fuel `d.length` is always enough. -/
def parseLoop : Nat → Str → Int → Int → Int → Int × Int × Int
  | 0, _, h, m, s => (h, m, s)
  | fuel + 1, d, h, m, s =>
    let i := digitRunLen d
    if i = 0 ∨ d.length ≤ i then (h, m, s)
    else
      let val := goDigits (d.take i) 0
      let u := d.getD i 0
      let rest := d.drop (i + 1)
      if u = 72 then parseLoop fuel rest val m s
      else if u = 77 then parseLoop fuel rest h val s
      else if u = 83 then parseLoop fuel rest h m val
      else parseLoop fuel rest h m s

/-- Function `ParseDuration` from videos.go: mandatory `PT` marker (bytes 80, 84),
then the group loop, then `hours*3600 + minutes*60 + seconds` in
wrapping 64-bit arithmetic. -/
def ParseDuration (s : Str) : Int :=
  if s.take 2 = [80, 84] then
    match parseLoop (s.drop 2).length (s.drop 2) 0 0 0 with
    | (h, m, sec) => toInt64 (toInt64 (toInt64 (h * 3600) + toInt64 (m * 60)) + sec)
  else 0

/-- Function `isShort` from videos.go: strict comparison against the threshold. -/
def isShort (duration : Str) (minDurationSeconds : Int) : Bool :=
  ParseDuration duration < minDurationSeconds


/-! ### Exact-arithmetic twin of the parser

`parseLoopN`/`parseDurationN` run the very same control flow as
`ParseDuration` but with exact natural-number arithmetic instead of
wrapping 64-bit arithmetic.  They are used to characterise when the Go
code's wrapped result coincides with the mathematical value. -/

/-- Exact decimal fold of a digit run. -/
def natVal : Str → Nat → Nat
  | [], v => v
  | b :: bs, v => natVal bs (v * 10 + (b - 48))

/-- Exact-arithmetic version of `parseLoop`. -/
def parseLoopN : Nat → Str → Nat → Nat → Nat → Nat × Nat × Nat
  | 0, _, h, m, s => (h, m, s)
  | fuel + 1, d, h, m, s =>
    let i := digitRunLen d
    if i = 0 ∨ d.length ≤ i then (h, m, s)
    else
      let val := natVal (d.take i) 0
      let u := d.getD i 0
      let rest := d.drop (i + 1)
      if u = 72 then parseLoopN fuel rest val m s
      else if u = 77 then parseLoopN fuel rest h val s
      else if u = 83 then parseLoopN fuel rest h m val
      else parseLoopN fuel rest h m s

/-- Exact-arithmetic version of `ParseDuration`. -/
def parseDurationN (s : Str) : Nat :=
  if s.take 2 = [80, 84] then
    match parseLoopN (s.drop 2).length (s.drop 2) 0 0 0 with
    | (h, m, sec) => h * 3600 + m * 60 + sec
  else 0

/-! ### The spec's grammar, following the spec's words

"a mandatory two-character marker, followed by zero or more
`<digits><unit>` groups where unit ∈ {H, M, S}, each contributing
`digits × {3600, 60, 1}` respectively to the total".  These definitions
are written from the spec's words, to be compared with `ParseDuration`
(which is translated from the source). -/

/-- Decompose a byte string into `<digits><unit>` groups with
unit ∈ {H, M, S}; `none` if the string is not a sequence of such
groups.  The fuel bounds recursion depth; `d.length` always suffices. -/
def specGroups : Nat → Str → Option (List (Nat × Nat))
  | _, [] => some []
  | 0, _ :: _ => none
  | fuel + 1, d =>
    let i := digitRunLen d
    if i = 0 then none
    else if d.length ≤ i then none
    else
      let u := d.getD i 0
      if u = 72 ∨ u = 77 ∨ u = 83 then
        (specGroups fuel (d.drop (i + 1))).map
          (fun gs => (natVal (d.take i) 0, u) :: gs)
      else none

/-- The weight the spec assigns to a unit letter. -/
def specWeight (u : Nat) : Nat := if u = 72 then 3600 else if u = 77 then 60 else 1

/-- The spec's total for a list of groups: sum of `digits × weight`. -/
def specSum (gs : List (Nat × Nat)) : Nat :=
  (gs.map fun g => specWeight g.2 * g.1).sum

/-- Grammar decomposition of a whole input: mandatory `PT` marker,
then a full decomposition of the remainder into groups. -/
def specGroupsOf (s : Str) : Option (List (Nat × Nat)) :=
  if s.take 2 = [80, 84] then specGroups (s.drop 2).length (s.drop 2) else none

/-- The total prescribed by the spec's restricted grammar, with zero for
any input that does not conform. -/
def specGrammarTotal (s : Str) : Nat :=
  match specGroupsOf s with
  | some gs => specSum gs
  | none => 0


/-! ## ListVideos (src/internal/youtube/videos.go)

The YouTube API is modelled as an oracle: `playlistItems` maps a
playlist id and a page token (the empty token standing for the initial
untokened call) to a page, `videosList` maps a batch of video ids to
their details.  The `for` loop is fuel-bounded; the fuel bounds the
number of page fetches, and every theorem below holds for every
sufficient fuel.  Page tokens requested and detail batches requested
are logged so that the theorems can speak about which calls happen. -/

deriving instance DecidableEq for Except

/-- Structure `VideoInfo` from videos.go. -/
structure VideoInfo where
  videoID : Str
  title : Str
  viewCount : Nat
  date : Str
deriving DecidableEq

/-- One item of a `Videos.List` response (id, snippet, statistics,
contentDetails — the fields `ListVideos` reads). -/
structure Vid where
  id : Str
  title : Str
  viewCount : Nat
  publishedAt : Str
  duration : Str
deriving DecidableEq

/-- One page of a `PlaylistItems.List` response: the video ids of its
items and the continuation token (empty when there is no next page). -/
structure PageResp where
  items : List Str
  nextPageToken : Str
deriving DecidableEq

/-- The two API calls the listing loop makes. -/
structure Svc where
  playlistItems : Str → Str → Except Str PageResp
  videosList : List Str → Except Str (List Vid)

/-- The `VideoInfo` record built for a kept video. -/
def vidInfo (v : Vid) : VideoInfo :=
  ⟨v.id, v.title, v.viewCount, v.publishedAt⟩

/-- The per-batch body: skip videos with `isShort`, keep the rest. -/
def processVideos (minDurationSeconds : Int) (vids : List Vid) : List VideoInfo :=
  vids.filterMap fun v =>
    if isShort v.duration minDurationSeconds then none else some (vidInfo v)

/-- Result of a run: the returned value, the page tokens requested and
the detail batches requested. -/
structure LoopOut where
  result : Except Str (List VideoInfo)
  pageCalls : List Str
  detailCalls : List (List Str)
deriving DecidableEq

/-- The paging loop of `ListVideos`.  Exhausted fuel is a modelling
artifact (the Go loop is unbounded); all theorems supply enough fuel
for it never to be reached. -/
def listVideosLoop (svc : Svc) (pid : Str) (minDurationSeconds : Int) :
    Nat → Str → List VideoInfo → List Str → List (List Str) → LoopOut
  | 0, _, _, pcs, dcs => ⟨.error (strBytes "page fetch limit exceeded"), pcs, dcs⟩
  | fuel + 1, token, acc, pcs, dcs =>
    match svc.playlistItems pid token with
    | .error e =>
      ⟨.error (strBytes "error retrieving playlist items: " ++ e), pcs ++ [token], dcs⟩
    | .ok page =>
      if page.items = [] then
        if page.nextPageToken = [] then ⟨.ok acc, pcs ++ [token], dcs⟩
        else
          listVideosLoop svc pid minDurationSeconds fuel page.nextPageToken acc
            (pcs ++ [token]) dcs
      else
        match svc.videosList page.items with
        | .error e =>
          ⟨.error (strBytes "error retrieving video statistics: " ++ e),
            pcs ++ [token], dcs ++ [page.items]⟩
        | .ok vids =>
          if page.nextPageToken = [] then
            ⟨.ok (acc ++ processVideos minDurationSeconds vids), pcs ++ [token],
              dcs ++ [page.items]⟩
          else
            listVideosLoop svc pid minDurationSeconds fuel page.nextPageToken
              (acc ++ processVideos minDurationSeconds vids) (pcs ++ [token])
              (dcs ++ [page.items])

/-- Environment of a `ListVideos` run: the API oracle plus the results
of `getAuthenticatedChannelID` and `getUploadsPlaylistID`. -/
structure ListEnv where
  svc : Svc
  authChannelID : Except Str Str
  uploadsOf : Str → Except Str Str

/-- Function `ListVideos`: resolve the channel id (authenticated channel when the
argument is empty), resolve the uploads playlist, then run the paging
loop from the empty token with empty accumulators. -/
def ListVideos (env : ListEnv) (channelID : Str) (minDurationSeconds : Int)
    (fuel : Nat) : LoopOut :=
  match (if channelID = [] then env.authChannelID else .ok channelID) with
  | .error e => ⟨.error e, [], []⟩
  | .ok cid =>
    match env.uploadsOf cid with
    | .error e => ⟨.error e, [], []⟩
    | .ok pid => listVideosLoop env.svc pid minDurationSeconds fuel [] [] [] []

/-! ## getHTTPClient (src/internal/youtube/client.go)

The token file, the clock, the silent-refresh call, the browser flow
and the save call are all oracles; the output records the token the
returned client is bound to, how many times the browser flow ran, and
which tokens were passed to `saveToken`. -/

/-- The fields of `oauth2.Token` the code inspects. -/
structure Token where
  accessToken : Str
  expiry : Int
deriving DecidableEq

/-- Environment of a `getHTTPClient` run. -/
structure AuthEnv where
  file : Option Token
  now : Int
  refreshed : Except Str Token
  web : Except Str Token
  saveResult : Except Str Unit

/-- Result of a `getHTTPClient` run. -/
structure AuthOut where
  result : Except Str Token
  webCalls : Nat
  saveCalls : List Token
deriving DecidableEq

/-- Function `getHTTPClient`: read the token file; on failure run the browser
flow and save.  On an expired token, silently refresh; if the refresh
fails, run the browser flow and save; if it succeeds with a changed
access token, save the new token; otherwise keep the old token without
writing. -/
def getHTTPClient (env : AuthEnv) : AuthOut :=
  match env.file with
  | none =>
    match env.web with
    | .error e => ⟨.error e, 1, []⟩
    | .ok tok =>
      match env.saveResult with
      | .error e => ⟨.error e, 1, [tok]⟩
      | .ok _ => ⟨.ok tok, 1, [tok]⟩
  | some tok =>
    if tok.expiry < env.now then
      match env.refreshed with
      | .error _ =>
        match env.web with
        | .error e => ⟨.error e, 1, []⟩
        | .ok tok2 =>
          match env.saveResult with
          | .error e => ⟨.error e, 1, [tok2]⟩
          | .ok _ => ⟨.ok tok2, 1, [tok2]⟩
      | .ok newTok =>
        if newTok.accessToken ≠ tok.accessToken then
          match env.saveResult with
          | .error e => ⟨.error e, 0, [newTok]⟩
          | .ok _ => ⟨.ok newTok, 0, [newTok]⟩
        else ⟨.ok tok, 0, []⟩
    else ⟨.ok tok, 0, []⟩

/-! ## getTokenFromWeb's callback listener (src/internal/youtube/client.go)

The unbuffered channel with a single waiting receiver is a single-slot
handoff: the first handler to send fills the slot; later sends never
reach the receiver.  Requests are modelled by the value of their `code`
query parameter (empty when absent). -/

/-- Process callback requests in arrival order against the handoff
slot: the first request fills it, later requests leave it unchanged. -/
def handleRequests : List Str → Option Str → Option Str
  | [], slot => slot
  | c :: rest, slot =>
    match slot with
    | some c0 => handleRequests rest (some c0)
    | none => handleRequests rest (some c)

/-- The code the waiting caller receives from the handoff. -/
def deliveredCode (reqs : List Str) : Option Str := handleRequests reqs none

/-- Following the claim's words: the code of the first request that
carries a non-empty `code` parameter. -/
def specFirstNonEmptyCode (reqs : List Str) : Option Str :=
  reqs.find? fun c => !c.isEmpty

/-- Function `getTokenFromWeb` after the handoff: an empty code is an
authorization failure, otherwise the code is exchanged for a token.
The `none` case (no request ever arrives) blocks forever in Go and is
unreachable in every theorem below. -/
def getTokenFromWeb (reqs : List Str) (exchange : Str → Except Str Token) :
    Except Str Token :=
  match deliveredCode reqs with
  | none => .error (strBytes "no callback request")
  | some code =>
    if code = [] then .error (strBytes "authorization failed")
    else
      match exchange code with
      | .error e => .error (strBytes "unable to retrieve token from web: " ++ e)
      | .ok tok => .ok tok

/-! ## SanitizeFilename (src/unnamed/part_001, src/main.go)

    reg := regexp.MustCompile(`[<>:"/\\|?*]`); ReplaceAllString(s, "_")
    if len(sanitized) > 100 { sanitized = sanitized[:100] }
    strings.Trim(sanitized, " .")
-/

/-- The reserved filesystem bytes `< > : " / \ | ? *`. -/
def reservedByte (b : Nat) : Bool :=
  b = 60 || b = 62 || b = 58 || b = 34 || b = 47 || b = 92 || b = 124 || b = 63 || b = 42

/-- Replace every reserved byte by `_` (95). -/
def replaceReserved (s : Str) : Str :=
  s.map fun b => if reservedByte b then 95 else b

/-- Truncation of main.go: `if len(s) > 100` then keep `s[:100]`. -/
def truncate100 (s : Str) : Str := if 100 < s.length then s.take 100 else s

/-- A byte of the `strings.Trim` cutset `" ."`: space (32) or period (46). -/
def trimByte (b : Nat) : Bool := b = 32 || b = 46

/-- Drop cutset bytes from the front. -/
def trimLeft (s : Str) : Str := s.dropWhile trimByte

/-- Drop cutset bytes from the back. -/
def trimRight (s : Str) : Str := (s.reverse.dropWhile trimByte).reverse

/-- Function `SanitizeFilename`: replace reserved bytes, truncate to 100 bytes,
trim spaces and periods from both ends. -/
def SanitizeFilename (s : Str) : Str :=
  trimRight (trimLeft (truncate100 (replaceReserved s)))


/-- Componentwise 64-bit wrap of a triple. -/
def wrapT (t : Nat × Nat × Nat) : Int × Int × Int :=
  (toInt64 t.1, toInt64 t.2.1, toInt64 t.2.2)

/-- Fold a group list over the `(hours, minutes, seconds)` state the way
the parser's `switch` does: each recognized unit overwrites its field. -/
def applyGroups : List (Nat × Nat) → Nat × Nat × Nat → Nat × Nat × Nat
  | [], t => t
  | (v, u) :: gs, (h, m, s) =>
    if u = 72 then applyGroups gs (v, m, s)
    else if u = 77 then applyGroups gs (h, v, s)
    else if u = 83 then applyGroups gs (h, m, v)
    else applyGroups gs (h, m, s)

/-- Value of the last group with unit `u`, with a default. -/
def lastVal (u : Nat) : List (Nat × Nat) → Nat → Nat
  | [], dflt => dflt
  | (v, u') :: gs, dflt => lastVal u gs (if u' = u then v else dflt)

/-! ### Lemmas about 64-bit wrapping -/

lemma toInt64_eq_self {x : Int} (h1 : -(2 ^ 63) ≤ x) (h2 : x < 2 ^ 63) :
    toInt64 x = x := by
  unfold toInt64
  omega

lemma toInt64_bounds (x : Int) : -(2 ^ 63) ≤ toInt64 x ∧ toInt64 x < 2 ^ 63 := by
  unfold toInt64
  omega

lemma toInt64_emod (x : Int) : toInt64 x % 2 ^ 64 = x % 2 ^ 64 := by
  unfold toInt64
  omega

lemma toInt64_congr {x y : Int} (h : x % 2 ^ 64 = y % 2 ^ 64) :
    toInt64 x = toInt64 y := by
  unfold toInt64
  omega

lemma toInt64_zero : toInt64 0 = 0 := by unfold toInt64; omega

/-! ### Bridging the wrapped parser to the exact parser -/

lemma take_digitRunLen (d : Str) : d.take (digitRunLen d) = d.takeWhile isDigitByte := by
  induction d with
  | nil => rfl
  | cons b bs ih =>
    by_cases hb : isDigitByte b
    · simp [digitRunLen, List.takeWhile_cons, hb, List.take_succ_cons] at *
      exact ih
    · simp [digitRunLen, List.takeWhile_cons, hb]

lemma digits_of_takeWhile {b : Nat} {d : Str}
    (h : b ∈ d.takeWhile isDigitByte) : isDigitByte b = true := by
  induction d with
  | nil => simp [List.takeWhile] at h
  | cons c cs ih =>
    rw [List.takeWhile_cons] at h
    by_cases hc : isDigitByte c
    · simp [hc] at h
      rcases h with h | h
      · exact h ▸ hc
      · exact ih h
    · simp [hc] at h

lemma byteDigit_of_digit {b : Nat} (h : isDigitByte b = true) :
    byteDigit b = (b : Int) - 48 := by
  simp only [isDigitByte, Bool.and_eq_true, decide_eq_true_eq] at h
  unfold byteDigit
  have : (b + 208) % 256 = b - 48 := by omega
  rw [this]
  omega

lemma goDigits_eq_natVal : ∀ (bs : Str) (v : Int) (w : Nat),
    (∀ b ∈ bs, isDigitByte b = true) → v = toInt64 w →
    goDigits bs v = toInt64 (natVal bs w) := by
  intro bs
  induction bs with
  | nil =>
    intro v w _ hv
    simpa [goDigits, natVal] using hv
  | cons b bs ih =>
    intro v w hd hv
    have hb : isDigitByte b = true := hd b (by simp)
    simp only [goDigits, natVal]
    apply ih _ _ (fun c hc => hd c (by simp [hc]))
    rw [byteDigit_of_digit hb]
    have hb48 : 48 ≤ b := by
      simp only [isDigitByte, Bool.and_eq_true, decide_eq_true_eq] at hb
      exact hb.1
    have hcast : ((w * 10 + (b - 48) : Nat) : Int) = (w : Int) * 10 + ((b : Int) - 48) := by
      omega
    rw [hcast]
    apply toInt64_congr
    have hvw : v % 2 ^ 64 = (w : Int) % 2 ^ 64 := by
      rw [hv]; exact toInt64_emod _
    have hm : v * 10 % 2 ^ 64 = (w : Int) * 10 % 2 ^ 64 := by
      rw [Int.mul_emod, hvw, ← Int.mul_emod]
    rw [Int.add_emod, toInt64_emod, hm, ← Int.add_emod]

lemma parseLoop_eq_parseLoopN : ∀ (fuel : Nat) (d : Str) (h m s : Nat),
    parseLoop fuel d (toInt64 h) (toInt64 m) (toInt64 s) =
      wrapT (parseLoopN fuel d h m s) := by
  intro fuel
  induction fuel with
  | zero => intro d h m s; rfl
  | succ f ih =>
    intro d h m s
    simp only [parseLoop, parseLoopN]
    by_cases hc : digitRunLen d = 0 ∨ d.length ≤ digitRunLen d
    · simp [hc, wrapT]
    · simp only [hc, if_false]
      have hval : goDigits (d.take (digitRunLen d)) 0 =
          toInt64 (natVal (d.take (digitRunLen d)) 0) := by
        apply goDigits_eq_natVal
        · intro b hb
          rw [take_digitRunLen] at hb
          exact digits_of_takeWhile hb
        · exact toInt64_zero.symm
      rw [hval]
      by_cases h72 : List.getD d (digitRunLen d) 0 = 72
      · rw [if_pos h72, if_pos h72]; exact ih _ _ _ _
      · rw [if_neg h72, if_neg h72]
        by_cases h77 : List.getD d (digitRunLen d) 0 = 77
        · rw [if_pos h77, if_pos h77]; exact ih _ _ _ _
        · rw [if_neg h77, if_neg h77]
          by_cases h83 : List.getD d (digitRunLen d) 0 = 83
          · rw [if_pos h83, if_pos h83]; exact ih _ _ _ _
          · rw [if_neg h83, if_neg h83]; exact ih _ _ _ _

lemma toInt64_add_left (x y : Int) : toInt64 (toInt64 x + y) = toInt64 (x + y) :=
  toInt64_congr (by rw [Int.add_emod, toInt64_emod, ← Int.add_emod])

lemma toInt64_add_right (x y : Int) : toInt64 (x + toInt64 y) = toInt64 (x + y) :=
  toInt64_congr (by rw [Int.add_emod, toInt64_emod, ← Int.add_emod])

lemma toInt64_mul_left (x k : Int) : toInt64 (toInt64 x * k) = toInt64 (x * k) :=
  toInt64_congr (by rw [Int.mul_emod, toInt64_emod, ← Int.mul_emod])

/-- The wrapped parser computes the 64-bit wrap of the exact value. -/
lemma ParseDuration_eq_toInt64 (s : Str) :
    ParseDuration s = toInt64 (parseDurationN s) := by
  unfold ParseDuration parseDurationN
  by_cases hp : s.take 2 = [80, 84]
  · simp only [hp, if_true]
    have h0 : (0 : Int) = toInt64 ((0 : Nat) : Int) := by
      rw [Nat.cast_zero, toInt64_zero]
    rw [h0, parseLoop_eq_parseLoopN]
    simp only [wrapT, toInt64_mul_left, toInt64_add_left, toInt64_add_right]
    apply toInt64_congr
    push_cast
    ring_nf
  · simp [hp, toInt64_zero]

/-! ### Relating the parser loop to the spec's group decomposition -/

lemma parseLoopN_nil (fuel h m s : Nat) : parseLoopN fuel [] h m s = (h, m, s) := by
  cases fuel <;> rfl

lemma applyGroups_eq_lastVal : ∀ (gs : List (Nat × Nat)) (h m s : Nat),
    applyGroups gs (h, m, s) = (lastVal 72 gs h, lastVal 77 gs m, lastVal 83 gs s) := by
  intro gs
  induction gs with
  | nil => intro h m s; rfl
  | cons g gs ih =>
    intro h m s
    obtain ⟨v, u⟩ := g
    by_cases h72 : u = 72
    · simp [applyGroups, lastVal, h72, ih]
    · by_cases h77 : u = 77
      · simp [applyGroups, lastVal, h72, h77, ih]
      · by_cases h83 : u = 83
        · simp [applyGroups, lastVal, h72, h77, h83, ih]
        · simp [applyGroups, lastVal, h72, h77, h83, ih]

lemma lastVal_of_not_mem : ∀ (gs : List (Nat × Nat)) (u dflt : Nat),
    u ∉ gs.map Prod.snd → lastVal u gs dflt = dflt := by
  intro gs
  induction gs with
  | nil => intro u dflt _; rfl
  | cons g gs ih =>
    intro u dflt hu
    obtain ⟨v, u'⟩ := g
    simp only [List.map_cons, List.mem_cons] at hu
    push_neg at hu
    simp only [lastVal]
    rw [if_neg (Ne.symm hu.1)]
    exact ih u dflt hu.2

lemma specGroups_units : ∀ (fl : Nat) (d : Str) (gs : List (Nat × Nat)),
    specGroups fl d = some gs → ∀ g ∈ gs, g.2 = 72 ∨ g.2 = 77 ∨ g.2 = 83 := by
  intro fl
  induction fl with
  | zero =>
    intro d gs hg
    cases d with
    | nil => simp [specGroups] at hg; simp [hg]
    | cons b bs => simp [specGroups] at hg
  | succ fl ih =>
    intro d gs hg
    cases d with
    | nil => simp [specGroups] at hg; simp [hg]
    | cons b bs =>
      by_cases h0 : digitRunLen (b :: bs) = 0
      · simp [specGroups, h0] at hg
      · simp [specGroups, h0] at hg
        obtain ⟨hlen, hu, gs', hrec, rfl⟩ := hg
        intro g hgmem
        rcases List.mem_cons.mp hgmem with rfl | hmem
        · exact hu
        · exact ih _ _ hrec g hmem

lemma specSum_nil : specSum [] = 0 := rfl

lemma specSum_cons (v u : Nat) (gs : List (Nat × Nat)) :
    specSum ((v, u) :: gs) = specWeight u * v + specSum gs := by
  simp [specSum]

lemma specSum_eq_lastVals : ∀ (gs : List (Nat × Nat)),
    (gs.map Prod.snd).Nodup →
    (∀ g ∈ gs, g.2 = 72 ∨ g.2 = 77 ∨ g.2 = 83) →
    specSum gs = 3600 * lastVal 72 gs 0 + 60 * lastVal 77 gs 0 + lastVal 83 gs 0 := by
  intro gs
  induction gs with
  | nil => intro _ _; rfl
  | cons g gs ih =>
    intro hnd hunits
    obtain ⟨v, u⟩ := g
    simp only [List.map_cons, List.nodup_cons] at hnd
    obtain ⟨hu_notmem, hnd'⟩ := hnd
    have ih' := ih hnd' (fun g hg => hunits g (List.mem_cons_of_mem _ hg))
    rcases hunits (v, u) (List.mem_cons_self _ _) with hu | hu | hu <;> subst hu
    · have h1 : lastVal 72 ((v, 72) :: gs) 0 = v := by
        simp only [lastVal, if_pos rfl]
        exact lastVal_of_not_mem gs 72 v hu_notmem
      have h2 : lastVal 77 ((v, 72) :: gs) 0 = lastVal 77 gs 0 := by
        norm_num [lastVal]
      have h3 : lastVal 83 ((v, 72) :: gs) 0 = lastVal 83 gs 0 := by
        norm_num [lastVal]
      have h4 : lastVal 72 gs 0 = 0 := lastVal_of_not_mem gs 72 0 hu_notmem
      rw [specSum_cons, ih', h1, h2, h3, h4]
      simp only [specWeight]
      norm_num
      omega
    · have h1 : lastVal 77 ((v, 77) :: gs) 0 = v := by
        simp only [lastVal, if_pos rfl]
        exact lastVal_of_not_mem gs 77 v hu_notmem
      have h2 : lastVal 72 ((v, 77) :: gs) 0 = lastVal 72 gs 0 := by
        norm_num [lastVal]
      have h3 : lastVal 83 ((v, 77) :: gs) 0 = lastVal 83 gs 0 := by
        norm_num [lastVal]
      have h4 : lastVal 77 gs 0 = 0 := lastVal_of_not_mem gs 77 0 hu_notmem
      rw [specSum_cons, ih', h1, h2, h3, h4]
      simp only [specWeight]
      norm_num
      omega
    · have h1 : lastVal 83 ((v, 83) :: gs) 0 = v := by
        simp only [lastVal, if_pos rfl]
        exact lastVal_of_not_mem gs 83 v hu_notmem
      have h2 : lastVal 72 ((v, 83) :: gs) 0 = lastVal 72 gs 0 := by
        norm_num [lastVal]
      have h3 : lastVal 77 ((v, 83) :: gs) 0 = lastVal 77 gs 0 := by
        norm_num [lastVal]
      have h4 : lastVal 83 gs 0 = 0 := lastVal_of_not_mem gs 83 0 hu_notmem
      rw [specSum_cons, ih', h1, h2, h3, h4]
      simp only [specWeight]
      norm_num
      omega

lemma parseLoopN_step (f : Nat) (d : Str) (h m s : Nat)
    (h0 : digitRunLen d ≠ 0) (hlen : digitRunLen d < d.length) :
    parseLoopN (f + 1) d h m s =
      (if d.getD (digitRunLen d) 0 = 72 then
        parseLoopN f (d.drop (digitRunLen d + 1)) (natVal (d.take (digitRunLen d)) 0) m s
      else if d.getD (digitRunLen d) 0 = 77 then
        parseLoopN f (d.drop (digitRunLen d + 1)) h (natVal (d.take (digitRunLen d)) 0) s
      else if d.getD (digitRunLen d) 0 = 83 then
        parseLoopN f (d.drop (digitRunLen d + 1)) h m (natVal (d.take (digitRunLen d)) 0)
      else parseLoopN f (d.drop (digitRunLen d + 1)) h m s) := by
  simp only [parseLoopN]
  rw [if_neg (by omega)]

lemma parseLoopN_of_specGroups : ∀ (fl : Nat) (d : Str) (gs : List (Nat × Nat))
    (fuel h m s : Nat),
    specGroups fl d = some gs → d.length ≤ fuel →
    parseLoopN fuel d h m s = applyGroups gs (h, m, s) := by
  intro fl
  induction fl with
  | zero =>
    intro d gs fuel h m s hg hfuel
    cases d with
    | nil =>
      simp [specGroups] at hg
      simp [hg, parseLoopN_nil, applyGroups]
    | cons b bs => simp [specGroups] at hg
  | succ fl ih =>
    intro d gs fuel h m s hg hfuel
    cases d with
    | nil =>
      simp [specGroups] at hg
      simp [hg, parseLoopN_nil, applyGroups]
    | cons b bs =>
      simp only [specGroups] at hg
      by_cases h0 : digitRunLen (b :: bs) = 0
      · rw [if_pos h0] at hg; simp at hg
      · rw [if_neg h0] at hg
        by_cases hl : (b :: bs).length ≤ digitRunLen (b :: bs)
        · rw [if_pos hl] at hg; simp at hg
        · rw [if_neg hl] at hg
          by_cases hu : (b :: bs).getD (digitRunLen (b :: bs)) 0 = 72 ∨
              (b :: bs).getD (digitRunLen (b :: bs)) 0 = 77 ∨
              (b :: bs).getD (digitRunLen (b :: bs)) 0 = 83
          · rw [if_pos hu] at hg
            cases hrec : specGroups fl ((b :: bs).drop (digitRunLen (b :: bs) + 1)) with
            | none => rw [hrec] at hg; simp at hg
            | some gs' =>
              rw [hrec] at hg
              simp only [Option.map_some'] at hg
              obtain rfl := Option.some.inj hg
              cases fuel with
              | zero => simp at hfuel
              | succ f =>
                have hrest : ((b :: bs).drop (digitRunLen (b :: bs) + 1)).length ≤ f := by
                  simp only [List.length_drop, List.length_cons] at *
                  omega
                rw [parseLoopN_step f _ h m s h0 (by omega)]
                rcases hu with hu | hu | hu
                · rw [if_pos hu, hu]
                  simp only [applyGroups, if_pos rfl]
                  exact ih _ _ _ _ _ _ hrec hrest
                · rw [if_neg (by rw [hu]; norm_num), if_pos hu, hu]
                  simp only [applyGroups]
                  norm_num
                  exact ih _ _ _ _ _ _ hrec hrest
                · rw [if_neg (by rw [hu]; norm_num), if_neg (by rw [hu]; norm_num),
                    if_pos hu, hu]
                  simp only [applyGroups]
                  norm_num
                  exact ih _ _ _ _ _ _ hrec hrest
          · rw [if_neg hu] at hg; simp at hg

/-- On a grammar-conforming input whose units are pairwise distinct and
whose prescribed total fits in 63 bits, the Go parser returns exactly
the grammar total. -/
lemma ParseDuration_eq_grammar {s : Str} {gs : List (Nat × Nat)}
    (hg : specGroupsOf s = some gs)
    (hnd : (gs.map Prod.snd).Nodup)
    (hlt : specSum gs < 2 ^ 63) :
    ParseDuration s = (specGrammarTotal s : Int) := by
  have hmarker : s.take 2 = [80, 84] := by
    by_contra hm
    simp [specGroupsOf, hm] at hg
  have hgg : specGroups (s.drop 2).length (s.drop 2) = some gs := by
    simpa [specGroupsOf, hmarker] using hg
  have hunits := specGroups_units _ _ _ hgg
  have hloop := parseLoopN_of_specGroups _ _ _ (s.drop 2).length 0 0 0 hgg le_rfl
  have hN : parseDurationN s = specSum gs := by
    unfold parseDurationN
    rw [if_pos hmarker, hloop, applyGroups_eq_lastVal,
      specSum_eq_lastVals gs hnd hunits]
    dsimp only
    omega
  have htot : specGrammarTotal s = specSum gs := by
    unfold specGrammarTotal
    rw [hg]
  rw [ParseDuration_eq_toInt64, hN, htot]
  have h0 : (0 : Int) ≤ (specSum gs : Int) := Int.natCast_nonneg _
  have h2 : ((specSum gs : Int)) < 2 ^ 63 := by exact_mod_cast hlt
  exact toInt64_eq_self (by omega) h2

/-! ### Lemmas about the listing loop -/

lemma processVideos_map {minDur : Int} {vids : List Vid}
    (h : ∀ v ∈ vids, isShort v.duration minDur = false) :
    (processVideos minDur vids).map VideoInfo.videoID = vids.map Vid.id := by
  induction vids with
  | nil => rfl
  | cons v vs ih =>
    have hv := h v (List.mem_cons_self _ _)
    simp only [processVideos, List.filterMap_cons, hv, Bool.false_eq_true, if_false,
      List.map_cons]
    rw [← ih (fun w hw => h w (List.mem_cons_of_mem _ hw))]
    rfl

lemma processVideos_nil (minDur : Int) : processVideos minDur [] = [] := rfl

/-- One successful iteration of the paging loop, covering both the
empty-page case (no detail call) and the non-empty case. -/
lemma listVideosLoop_step {svc : Svc} {pid : Str} (minDur : Int) (fuel : Nat)
    {token : Str} (acc : List VideoInfo) (pcs : List Str) (dcs : List (List Str))
    {page : PageResp} {vids : List Vid}
    (hp : svc.playlistItems pid token = .ok page)
    (hv : svc.videosList page.items = .ok vids)
    (hnilv : page.items = [] → vids = []) :
    ∃ dcs2,
      listVideosLoop svc pid minDur (fuel + 1) token acc pcs dcs =
        if page.nextPageToken = [] then
          ⟨.ok (acc ++ processVideos minDur vids), pcs ++ [token], dcs2⟩
        else
          listVideosLoop svc pid minDur fuel page.nextPageToken
            (acc ++ processVideos minDur vids) (pcs ++ [token]) dcs2 := by
  simp only [listVideosLoop]
  rw [hp]
  dsimp only
  by_cases hi : page.items = []
  · refine ⟨dcs, ?_⟩
    rw [hnilv hi, processVideos_nil, List.append_nil]
    simp [hi]
  · refine ⟨dcs ++ [page.items], ?_⟩
    rw [if_neg hi, hv]

/-! ### Lemmas about SanitizeFilename -/

lemma head?_dropWhile_false {p : Nat → Bool} {l : Str} {a : Nat}
    (h : (l.dropWhile p).head? = some a) : p a = false := by
  have H := List.head?_dropWhile_not p l
  rw [h] at H
  exact H

lemma length_dropWhile_le (p : Nat → Bool) (l : Str) :
    (l.dropWhile p).length ≤ l.length := by
  conv_rhs => rw [← List.takeWhile_append_dropWhile p l]
  rw [List.length_append]
  omega

lemma mem_dropWhile {p : Nat → Bool} {l : Str} {b : Nat}
    (h : b ∈ l.dropWhile p) : b ∈ l := by
  rw [← List.takeWhile_append_dropWhile p l]
  exact List.mem_append_right _ h

lemma mem_trimLeft {l : Str} {b : Nat} (h : b ∈ trimLeft l) : b ∈ l :=
  mem_dropWhile h

lemma mem_trimRight {l : Str} {b : Nat} (h : b ∈ trimRight l) : b ∈ l := by
  unfold trimRight at h
  rw [List.mem_reverse] at h
  have := mem_dropWhile h
  rwa [List.mem_reverse] at this

lemma mem_truncate100 {l : Str} {b : Nat} (h : b ∈ truncate100 l) : b ∈ l := by
  unfold truncate100 at h
  by_cases hc : 100 < l.length
  · rw [if_pos hc] at h
    exact (List.take_sublist _ _).mem h
  · rwa [if_neg hc] at h

lemma mem_replaceReserved {s : Str} {b : Nat} (h : b ∈ replaceReserved s) :
    reservedByte b = false := by
  unfold replaceReserved at h
  rw [List.mem_map] at h
  obtain ⟨a, _, rfl⟩ := h
  by_cases ha : reservedByte a
  · rw [if_pos ha]; decide
  · rw [if_neg ha]; exact Bool.not_eq_true _ ▸ (by simpa using ha)

lemma mem_SanitizeFilename_not_reserved {s : Str} {b : Nat}
    (h : b ∈ SanitizeFilename s) : reservedByte b = false := by
  unfold SanitizeFilename at h
  exact mem_replaceReserved (mem_truncate100 (mem_trimLeft (mem_trimRight h)))

lemma length_truncate100_le (s : Str) : (truncate100 s).length ≤ 100 := by
  unfold truncate100
  by_cases hc : 100 < s.length
  · rw [if_pos hc, List.length_take]
    omega
  · rw [if_neg hc]
    omega

lemma length_trimLeft_le (s : Str) : (trimLeft s).length ≤ s.length :=
  length_dropWhile_le _ _

lemma length_trimRight_le (s : Str) : (trimRight s).length ≤ s.length := by
  unfold trimRight
  rw [List.length_reverse]
  have := length_dropWhile_le trimByte s.reverse
  rwa [List.length_reverse] at this

lemma length_SanitizeFilename_le (s : Str) : (SanitizeFilename s).length ≤ 100 := by
  unfold SanitizeFilename
  calc (trimRight (trimLeft (truncate100 (replaceReserved s)))).length
      ≤ (trimLeft (truncate100 (replaceReserved s))).length := length_trimRight_le _
    _ ≤ (truncate100 (replaceReserved s)).length := length_trimLeft_le _
    _ ≤ 100 := length_truncate100_le _

lemma replaceReserved_eq_self {l : Str} (h : ∀ b ∈ l, reservedByte b = false) :
    replaceReserved l = l := by
  unfold replaceReserved
  rw [List.map_congr_left fun b hb => by rw [if_neg (by simp [h b hb])]]
  exact List.map_id l

lemma truncate100_eq_self {l : Str} (h : l.length ≤ 100) : truncate100 l = l := by
  unfold truncate100
  rw [if_neg (by omega)]

/-- The head of a sanitized name, if any, is the head of the left-trimmed
string, hence not a cutset byte. -/
lemma SanitizeFilename_head {s : Str} {a : Nat}
    (h : (SanitizeFilename s).head? = some a) : trimByte a = false := by
  unfold SanitizeFilename trimRight at h
  set w := trimLeft (truncate100 (replaceReserved s)) with hw
  obtain ⟨k, hk⟩ : ∃ k, (w.reverse.dropWhile trimByte).reverse ++ k = w := by
    have hsfx := List.dropWhile_suffix (l := w.reverse) trimByte
    obtain ⟨k0, hk0⟩ := hsfx
    refine ⟨k0.reverse, ?_⟩
    have := congrArg List.reverse hk0
    rw [List.reverse_append] at this
    rw [this, List.reverse_reverse]
  cases hr : (w.reverse.dropWhile trimByte).reverse with
  | nil => rw [hr] at h; simp at h
  | cons c cs =>
    rw [hr] at h hk
    simp only [List.head?_cons] at h
    have hwh : w.head? = some c := by
      rw [← hk]
      rfl
    have hc : trimByte c = false := by
      unfold trimLeft at hw
      rw [hw] at hwh
      exact head?_dropWhile_false hwh
    rw [← Option.some.inj h]
    exact hc

/-- The last byte of a sanitized name, if any, is the head of the
reversed right-trim, hence not a cutset byte. -/
lemma SanitizeFilename_getLast {s : Str} {a : Nat}
    (h : (SanitizeFilename s).getLast? = some a) : trimByte a = false := by
  unfold SanitizeFilename trimRight at h
  rw [List.getLast?_eq_head?_reverse, List.reverse_reverse] at h
  exact head?_dropWhile_false h

lemma trimLeft_eq_self {l : Str}
    (h : ∀ a, l.head? = some a → trimByte a = false) : trimLeft l = l := by
  unfold trimLeft
  cases l with
  | nil => rfl
  | cons b bs =>
    rw [List.dropWhile_cons_of_neg]
    simp [h b rfl]

lemma trimRight_eq_self {l : Str}
    (h : ∀ a, l.getLast? = some a → trimByte a = false) : trimRight l = l := by
  unfold trimRight
  cases hr : l.reverse with
  | nil =>
    rw [List.dropWhile_nil]
    rw [← hr, List.reverse_reverse]
  | cons b bs =>
    rw [List.dropWhile_cons_of_neg, ← hr, List.reverse_reverse]
    have hb : l.getLast? = some b := by
      rw [List.getLast?_eq_head?_reverse, hr, List.head?_cons]
    simp [h b hb]

/-- Sanitizing is idempotent. -/
lemma SanitizeFilename_idem (s : Str) :
    SanitizeFilename (SanitizeFilename s) = SanitizeFilename s := by
  conv_lhs => rw [SanitizeFilename]
  rw [replaceReserved_eq_self
      (fun b hb => mem_SanitizeFilename_not_reserved hb),
    truncate100_eq_self (length_SanitizeFilename_le s),
    trimLeft_eq_self (fun a ha => SanitizeFilename_head ha),
    trimRight_eq_self (fun a ha => SanitizeFilename_getLast ha)]

/-! ### Callback handoff lemmas -/

lemma handleRequests_filled : ∀ (rest : List Str) (c0 : Str),
    handleRequests rest (some c0) = some c0 := by
  intro rest
  induction rest with
  | nil => intro c0; rfl
  | cons c cs ih => intro c0; simpa [handleRequests] using ih c0

/-! ## The claims -/

/-- C1 (counterexample).  The claim prescribes the sum over all groups
and zero for any input containing a digit run not followed by a
recognized unit.  The code overwrites a unit's field on a repeated
unit (`"PT1S2S"` returns 2, grammar total 3), and it skips an
unrecognized-unit group and keeps parsing (`"PT1D30S"` returns 30, the
claim demands 0). -/
theorem claim1_counterexample :
    (ParseDuration (strBytes "PT1S2S") = 2 ∧
      specGrammarTotal (strBytes "PT1S2S") = 3 ∧
      ParseDuration (strBytes "PT1S2S") ≠
        (specGrammarTotal (strBytes "PT1S2S") : Int)) ∧
    (ParseDuration (strBytes "PT1D30S") = 30 ∧
      ParseDuration (strBytes "PT1D30S") ≠ 0) := by
  refine ⟨⟨by decide, by decide, by decide⟩, by decide, by decide⟩

/-- C1 (amended).  All listed examples hold; a missing marker yields 0;
and on every input that fully decomposes into digit-unit groups with
pairwise distinct units and a total below `2^63`, `ParseDuration`
returns exactly the grammar total.  (On repeated units the last group
wins, and oversized totals wrap at 64 bits.) -/
theorem claim1_amended :
    (ParseDuration (strBytes "PT0S") = 0 ∧ ParseDuration (strBytes "PT30S") = 30 ∧
      ParseDuration (strBytes "PT5M") = 300 ∧ ParseDuration (strBytes "PT2H") = 7200 ∧
      ParseDuration (strBytes "PT1H30M45S") = 5445 ∧ ParseDuration (strBytes "") = 0 ∧
      ParseDuration (strBytes "P1D") = 0 ∧ ParseDuration (strBytes "1H30M") = 0 ∧
      ParseDuration (strBytes "PT") = 0) ∧
    (∀ (s : Str), ¬ s.take 2 = [80, 84] → ParseDuration s = 0) ∧
    (∀ (s : Str) (gs : List (Nat × Nat)), specGroupsOf s = some gs →
      (gs.map Prod.snd).Nodup → specSum gs < 2 ^ 63 →
      ParseDuration s = (specGrammarTotal s : Int)) := by
  refine ⟨by decide, fun s h => ?_, fun s gs hg hnd hlt =>
    ParseDuration_eq_grammar hg hnd hlt⟩
  unfold ParseDuration
  rw [if_neg h]

/-- Witness for C1's amended statement at a concrete conforming input. -/
theorem claim1_amended_witness :
    ParseDuration (strBytes "PT2H30M") = (specGrammarTotal (strBytes "PT2H30M") : Int) :=
  claim1_amended.2.2 (strBytes "PT2H30M") [(2, 72), (30, 77)] (by decide) (by decide)
    (by decide)

/-- C6.  The short filter is a strict comparison: `isShort` is exactly
`ParseDuration d < m`, a video whose parsed duration equals the
threshold is kept (both at the `isShort` level and in the per-batch
filter of `ListVideos`), and the three spec examples hold with parsed
seconds 60, 59 and 0 against threshold 60. -/
theorem claim6_isShort_strict :
    (∀ (d : Str) (m : Int), isShort d m = decide (ParseDuration d < m)) ∧
    (∀ (d : Str) (m : Int), ParseDuration d = m → isShort d m = false) ∧
    isShort (strBytes "PT1M") 60 = false ∧
    isShort (strBytes "PT59S") 60 = true ∧
    isShort (strBytes "PT0S") 60 = true ∧
    (∀ (m : Int) (v : Vid) (vids : List Vid), v ∈ vids →
      ParseDuration v.duration = m → vidInfo v ∈ processVideos m vids) := by
  refine ⟨fun d m => rfl, fun d m h => ?_, by decide, by decide, by decide, ?_⟩
  · unfold isShort
    simp [h]
  · intro m v vids hv hd
    unfold processVideos
    rw [List.mem_filterMap]
    refine ⟨v, hv, ?_⟩
    rw [if_neg (by simp [isShort, hd])]

/-- Witness for C6 at a concrete threshold-equal input. -/
theorem claim6_witness : isShort (strBytes "PT1M") (60 : Int) = false :=
  claim6_isShort_strict.2.1 (strBytes "PT1M") 60 (by decide)

/-- C7 (counterexample).  `DurationSeconds` is an `int`; a 19-digit
seconds run overflows 64-bit arithmetic and the parser returns a
negative number. -/
theorem claim7_counterexample :
    ParseDuration (strBytes "PT9223372036854775808S") < 0 := by decide

/-- C7 (amended).  Whenever the exact (unbounded) value of the parse is
below `2^63`, no 64-bit wrap occurs and the result is that exact
non-negative value; larger digit runs can wrap negative. -/
theorem claim7_amended (s : Str) (hsmall : parseDurationN s < 2 ^ 63) :
    0 ≤ ParseDuration s ∧ ParseDuration s = (parseDurationN s : Int) := by
  rw [ParseDuration_eq_toInt64]
  have h0 : (0 : Int) ≤ (parseDurationN s : Int) := Int.natCast_nonneg _
  have h2 : ((parseDurationN s : Int)) < 2 ^ 63 := by exact_mod_cast hsmall
  rw [toInt64_eq_self (by omega) h2]
  exact ⟨h0, rfl⟩

/-- Witness for C7's amended statement. -/
theorem claim7_witness :
    0 ≤ ParseDuration (strBytes "PT30S") ∧
      ParseDuration (strBytes "PT30S") = (parseDurationN (strBytes "PT30S") : Int) :=
  claim7_amended (strBytes "PT30S") (by decide)

/-- C3.  With a stored token whose expiry is in the past and a failing
silent refresh, `getHTTPClient` runs the browser flow exactly once,
persists the token that flow produced, and returns a client bound to
it. -/
theorem claim3_refresh_fail_runs_flow (env : AuthEnv) (tok t : Token) (e : Str)
    (hfile : env.file = some tok) (hexp : tok.expiry < env.now)
    (href : env.refreshed = .error e) (hweb : env.web = .ok t)
    (hsave : env.saveResult = .ok ()) :
    getHTTPClient env = ⟨.ok t, 1, [t]⟩ := by
  unfold getHTTPClient
  rw [hfile]
  dsimp only
  rw [if_pos hexp, href]
  dsimp only
  rw [hweb]
  dsimp only
  rw [hsave]

/-- Witness for C3 on a concrete expired-token environment. -/
theorem claim3_witness :
    getHTTPClient ⟨some ⟨strBytes "old", 0⟩, 1, .error (strBytes "boom"),
        .ok ⟨strBytes "new", 9⟩, .ok ()⟩ =
      ⟨.ok ⟨strBytes "new", 9⟩, 1, [⟨strBytes "new", 9⟩]⟩ :=
  claim3_refresh_fail_runs_flow _ ⟨strBytes "old", 0⟩ ⟨strBytes "new", 9⟩
    (strBytes "boom") rfl (by decide) rfl rfl rfl

/-- C4.  With an expired stored token and a successful silent refresh:
if the refreshed access token equals the stored one, no save happens
(the credential file is untouched) and the client is returned on the
stored token; only when the access token differs is the refreshed token
persisted. -/
theorem claim4_same_token_no_write (env : AuthEnv) (tok newTok : Token)
    (hfile : env.file = some tok) (hexp : tok.expiry < env.now)
    (href : env.refreshed = .ok newTok) :
    (newTok.accessToken = tok.accessToken → getHTTPClient env = ⟨.ok tok, 0, []⟩) ∧
    (newTok.accessToken ≠ tok.accessToken → env.saveResult = .ok () →
      getHTTPClient env = ⟨.ok newTok, 0, [newTok]⟩) := by
  constructor
  · intro hsame
    unfold getHTTPClient
    rw [hfile]
    dsimp only
    rw [if_pos hexp, href]
    dsimp only
    rw [if_neg (by simp [hsame])]
  · intro hdiff hsave
    unfold getHTTPClient
    rw [hfile]
    dsimp only
    rw [if_pos hexp, href]
    dsimp only
    rw [if_pos hdiff]
    rw [hsave]

/-- Witness for C4 on a concrete identical-access-token refresh. -/
theorem claim4_witness :
    getHTTPClient ⟨some ⟨strBytes "acc", 0⟩, 1, .ok ⟨strBytes "acc", 9⟩,
        .error (strBytes "unused"), .ok ()⟩ = ⟨.ok ⟨strBytes "acc", 0⟩, 0, []⟩ :=
  (claim4_same_token_no_write _ ⟨strBytes "acc", 0⟩ ⟨strBytes "acc", 9⟩ rfl
    (by decide) rfl).1 rfl

/-- C9 (counterexample).  When an empty-code request arrives first, the
handoff delivers the empty code, not the code of the first request that
carries a non-empty `code` parameter. -/
theorem claim9_counterexample :
    specFirstNonEmptyCode [strBytes "", strBytes "ABC"] = some (strBytes "ABC") ∧
    deliveredCode [strBytes "", strBytes "ABC"] = some (strBytes "") ∧
    deliveredCode [strBytes "", strBytes "ABC"] ≠
      specFirstNonEmptyCode [strBytes "", strBytes "ABC"] := by
  refine ⟨by decide, by decide, by decide⟩

/-- C9 (amended).  The code of the FIRST request — whatever it is — is
delivered exactly once; a filled handoff slot is never changed by later
requests; and when the first request carries a non-empty code that
exchanges successfully, `getTokenFromWeb` returns that exchange's
token. -/
theorem claim9_amended :
    (∀ (c : Str) (rest : List Str), deliveredCode (c :: rest) = some c) ∧
    (∀ (rest : List Str) (c0 : Str), handleRequests rest (some c0) = some c0) ∧
    (∀ (c : Str) (rest : List Str) (exchange : Str → Except Str Token) (tok : Token),
      c ≠ [] → exchange c = .ok tok →
      getTokenFromWeb (c :: rest) exchange = .ok tok) := by
  refine ⟨fun c rest => handleRequests_filled rest c, handleRequests_filled, ?_⟩
  intro c rest exchange tok hc hex
  unfold getTokenFromWeb
  rw [show deliveredCode (c :: rest) = some c from handleRequests_filled rest c]
  dsimp only
  rw [if_neg hc]
  rw [hex]

/-- Witness for C9's amended statement. -/
theorem claim9_witness :
    getTokenFromWeb [strBytes "ABC"] (fun _ => .ok ⟨strBytes "tok", 0⟩) =
      .ok ⟨strBytes "tok", 0⟩ :=
  claim9_amended.2.2 (strBytes "ABC") [] (fun _ => .ok ⟨strBytes "tok", 0⟩)
    ⟨strBytes "tok", 0⟩ (by decide) rfl

/-- C10.  When the first page is empty with an empty continuation
cursor, `ListVideos` succeeds with the empty summary sequence, fetches
exactly one page, and makes no batch detail call. -/
theorem claim10_empty_first_page (env : ListEnv) (cid pid : Str) (minDur : Int)
    (fuel : Nat) (hcid : cid ≠ []) (hupl : env.uploadsOf cid = .ok pid)
    (hp : env.svc.playlistItems pid [] = .ok ⟨[], []⟩) :
    ListVideos env cid minDur (fuel + 1) = ⟨.ok [], [[]], []⟩ := by
  unfold ListVideos
  rw [if_neg hcid]
  dsimp only
  rw [hupl]
  dsimp only
  simp only [listVideosLoop]
  rw [hp]
  dsimp only
  simp

/-- Witness for C10 on a concrete empty channel. -/
theorem claim10_witness :
    ListVideos
      ⟨⟨fun _ _ => .ok ⟨[], []⟩, fun _ => .ok []⟩, .error (strBytes "unused"),
        fun _ => .ok (strBytes "up")⟩ (strBytes "chan") 60 1 = ⟨.ok [], [[]], []⟩ :=
  claim10_empty_first_page _ (strBytes "chan") (strBytes "up") 60 0 (by decide)
    rfl rfl

/-- C5.  A failing page fetch (at any reached cursor, whatever has been
accumulated) or a failing batch detail fetch makes the whole operation
fail with the one wrapped error; the accumulated summaries do not
appear in the result, and the same holds from the top of
`ListVideos`. -/
theorem claim5_error_propagation :
    (∀ (svc : Svc) (pid : Str) (minDur : Int) (fuel : Nat) (token : Str)
        (acc : List VideoInfo) (pcs : List Str) (dcs : List (List Str)) (e : Str),
      svc.playlistItems pid token = .error e →
      (listVideosLoop svc pid minDur (fuel + 1) token acc pcs dcs).result =
        .error (strBytes "error retrieving playlist items: " ++ e)) ∧
    (∀ (svc : Svc) (pid : Str) (minDur : Int) (fuel : Nat) (token : Str)
        (acc : List VideoInfo) (pcs : List Str) (dcs : List (List Str))
        (page : PageResp) (e : Str),
      svc.playlistItems pid token = .ok page → page.items ≠ [] →
      svc.videosList page.items = .error e →
      (listVideosLoop svc pid minDur (fuel + 1) token acc pcs dcs).result =
        .error (strBytes "error retrieving video statistics: " ++ e)) ∧
    (∀ (env : ListEnv) (cid pid : Str) (minDur : Int) (fuel : Nat) (e : Str),
      cid ≠ [] → env.uploadsOf cid = .ok pid →
      env.svc.playlistItems pid [] = .error e →
      (ListVideos env cid minDur (fuel + 1)).result =
        .error (strBytes "error retrieving playlist items: " ++ e)) := by
  refine ⟨?_, ?_, ?_⟩
  · intro svc pid minDur fuel token acc pcs dcs e he
    simp only [listVideosLoop]
    rw [he]
  · intro svc pid minDur fuel token acc pcs dcs page e hp hne hv
    simp only [listVideosLoop]
    rw [hp]
    dsimp only
    rw [if_neg hne, hv]
  · intro env cid pid minDur fuel e hcid hupl hp
    unfold ListVideos
    rw [if_neg hcid]
    dsimp only
    rw [hupl]
    dsimp only
    simp only [listVideosLoop]
    rw [hp]

/-- Witness for C5 on a concrete always-failing page fetch. -/
theorem claim5_witness :
    (listVideosLoop ⟨fun _ _ => .error (strBytes "boom"), fun _ => .ok []⟩
        (strBytes "pl") 60 1 [] [] [] []).result =
      .error (strBytes "error retrieving playlist items: " ++ strBytes "boom") :=
  claim5_error_propagation.1 ⟨fun _ _ => .error (strBytes "boom"), fun _ => .ok []⟩
    (strBytes "pl") 60 0 [] [] [] [] (strBytes "boom") rfl

/-- C2.  On a simulated two-page listing — page 1 with `N` items and a
non-empty cursor, page 2 with `M` items and an empty cursor, details
echoing the requested ids, nothing filtered as short, distinct ids —
`ListVideos` returns exactly `N+M` summaries whose ids are the two
pages' ids in order with no duplicates, requesting exactly the cursors
`""` and the continuation, for every sufficient fuel. -/
theorem claim2_two_pages (env : ListEnv) (cid pid tok2 : Str)
    (items1 items2 : List Str) (details : List Str → List Vid)
    (minDur : Int) (fuel : Nat)
    (hcid : cid ≠ [])
    (hupl : env.uploadsOf cid = .ok pid)
    (hp1 : env.svc.playlistItems pid [] = .ok ⟨items1, tok2⟩)
    (htok : tok2 ≠ [])
    (hp2 : env.svc.playlistItems pid tok2 = .ok ⟨items2, []⟩)
    (hdet : ∀ ids, env.svc.videosList ids = .ok (details ids))
    (hids : ∀ ids, (details ids).map Vid.id = ids)
    (hkeep : ∀ ids v, v ∈ details ids → isShort v.duration minDur = false)
    (hnd : (items1 ++ items2).Nodup)
    (hfuel : 2 ≤ fuel) :
    ∃ (out : List VideoInfo) (dcs : List (List Str)),
      ListVideos env cid minDur fuel = ⟨.ok out, [[], tok2], dcs⟩ ∧
      out.map VideoInfo.videoID = items1 ++ items2 ∧
      out.length = items1.length + items2.length ∧
      (out.map VideoInfo.videoID).Nodup := by
  obtain ⟨k, rfl⟩ : ∃ k, fuel = k + 1 + 1 := ⟨fuel - 2, by omega⟩
  have hdnil : details [] = [] := List.map_eq_nil_iff.mp (hids [])
  obtain ⟨dcs1, hstep1⟩ := listVideosLoop_step minDur (k + 1) [] [] [] hp1
    (hdet items1)
    (fun h => by
      have h1 : items1 = [] := h
      rw [h1, hdnil])
  obtain ⟨dcs2, hstep2⟩ := listVideosLoop_step minDur k
    ([] ++ processVideos minDur (details items1)) ([] ++ [([] : Str)]) dcs1 hp2
    (hdet items2)
    (fun h => by
      have h2 : items2 = [] := h
      rw [h2, hdnil])
  have hmap1 := processVideos_map (fun v hv => hkeep items1 v hv)
  have hmap2 := processVideos_map (fun v hv => hkeep items2 v hv)
  refine ⟨processVideos minDur (details items1) ++ processVideos minDur (details items2),
    dcs2, ?_, ?_, ?_, ?_⟩
  · unfold ListVideos
    rw [if_neg hcid]
    dsimp only
    rw [hupl]
    dsimp only
    rw [hstep1, if_neg htok, hstep2, if_pos rfl]
    simp
  · rw [List.map_append, hmap1, hmap2, hids, hids]
  · have hlen : ((processVideos minDur (details items1) ++
        processVideos minDur (details items2)).map VideoInfo.videoID).length =
        (items1 ++ items2).length := by
      rw [List.map_append, hmap1, hmap2, hids, hids]
    simpa [List.length_map, List.length_append] using hlen
  · rw [List.map_append, hmap1, hmap2, hids, hids]
    exact hnd

/-- Witness for C2 on a concrete two-page simulation with one video per
page. -/
theorem claim2_witness :
    ∃ (out : List VideoInfo) (dcs : List (List Str)),
      ListVideos
          ⟨⟨fun _ tok => if tok = [] then .ok ⟨[strBytes "v1"], strBytes "T2"⟩
              else .ok ⟨[strBytes "v2"], []⟩,
            fun ids => .ok (ids.map fun i =>
              ⟨i, strBytes "t", 0, strBytes "d", strBytes "PT1H"⟩)⟩,
            .error (strBytes "unused"), fun _ => .ok (strBytes "up")⟩
          (strBytes "chan") 60 2 = ⟨.ok out, [[], strBytes "T2"], dcs⟩ ∧
      out.map VideoInfo.videoID = [strBytes "v1"] ++ [strBytes "v2"] ∧
      out.length = [strBytes "v1"].length + [strBytes "v2"].length ∧
      (out.map VideoInfo.videoID).Nodup :=
  claim2_two_pages _ (strBytes "chan") (strBytes "up") (strBytes "T2")
    [strBytes "v1"] [strBytes "v2"]
    (fun ids => ids.map fun i => ⟨i, strBytes "t", 0, strBytes "d", strBytes "PT1H"⟩)
    60 2 (by decide) rfl (by decide) (by decide) (by decide) (fun ids => rfl)
    (fun ids => by induction ids with | nil => rfl | cons i is ih => simp [ih]) (fun ids v hv => by
      rw [List.mem_map] at hv
      obtain ⟨i, _, rfl⟩ := hv
      show isShort (strBytes "PT1H") 60 = false
      decide)
    (by decide) (by omega)

/-- C8.  Sanitizing is idempotent; the result is at most 100 bytes,
never begins or ends with a space (32) or period (46), and contains no
reserved filesystem byte. -/
theorem claim8_sanitize (s : Str) :
    SanitizeFilename (SanitizeFilename s) = SanitizeFilename s ∧
    (SanitizeFilename s).length ≤ 100 ∧
    (∀ a, (SanitizeFilename s).head? = some a → a ≠ 32 ∧ a ≠ 46) ∧
    (∀ a, (SanitizeFilename s).getLast? = some a → a ≠ 32 ∧ a ≠ 46) ∧
    (∀ b ∈ SanitizeFilename s, reservedByte b = false) := by
  refine ⟨SanitizeFilename_idem s, length_SanitizeFilename_le s, ?_, ?_,
    fun b hb => mem_SanitizeFilename_not_reserved hb⟩
  · intro a ha
    have h := SanitizeFilename_head ha
    simpa [trimByte] using h
  · intro a ha
    have h := SanitizeFilename_getLast ha
    simpa [trimByte] using h

/-- Witness for C8 on a concrete dirty filename. -/
theorem claim8_witness : (97 : Nat) ≠ 32 ∧ (97 : Nat) ≠ 46 :=
  (claim8_sanitize (strBytes " a<b. ")).2.2.1 97 (by decide)

end Ytt
